import Mathlib

/-!
Shallow embedding of `pkg/detector/detector.go` from the silence-detector
repository, together with theorems settling the frozen claims about it.

Modelling conventions:
* Go `float64` timestamps and durations are modelled as `ℚ`.  All the
  arithmetic the parser performs on them (subtraction, addition, comparison,
  absolute value) is exact in the source's intent; `ℚ` keeps it exact.
* Go strings are modelled as `List Char` (obtained from a Lean `String` via
  `String.data`); `strings.Split(output, "\n")` and `strings.TrimSpace`
  are modelled directly on character lists.
* The three package-level regular expressions are compiled by hand into
  deterministic scanners.  Each pattern starts with a fixed literal marker,
  so a leftmost match must begin at an occurrence of that literal; at a
  given occurrence the greedy sub-expressions of these particular patterns
  never need to backtrack (shortening a greedy `[0-9]+`/`(?:\.[0-9]+)?`
  leaves a digit or `.` as the next character, which can never satisfy the
  following `\s*\|`, `:` or end-of-pattern requirement), so a left-to-right
  scan trying each marker occurrence in turn computes exactly the
  leftmost-first match that Go's `regexp` package returns.
* `strconv.ParseFloat(s, 64)` is modelled on the sub-language of
  non-negative decimal literals `[0-9]+(\.[0-9]+)?` — the only strings the
  code ever passes to it (regexp captures).  On that sub-language Go's
  behaviour is: syntactically invalid text is an error (`ErrSyntax`), a
  well-formed literal whose value overflows `float64` (rounds to `+Inf`,
  i.e. is at least `2^1024 - 2^970`) is an error (`ErrRange`), and
  everything else succeeds.  The returned value is modelled exactly
  (as a rational) rather than rounded to the nearest `float64`.
* `strconv.Atoi` is applied only to the `[0-9]{2}` hour/minute captures of
  the progress pattern; on two ASCII digits it can fail neither with a
  syntax nor with a range error, so it is modelled as the total function
  `natOfDigits`.
-/

set_option exponentiation.threshold 1100

attribute [local semireducible] Rat.add Rat.sub Rat.mul Rat.inv Rat.ofScientific

deriving instance DecidableEq for Except

namespace SilenceDetector

/-- `SilenceInterval` (detector.go): start, end and duration of a detected
silent period, in seconds. -/
structure SilenceInterval where
  Start : ℚ
  End : ℚ
  Duration : ℚ
  deriving DecidableEq

/-- `DetectionOptions` (detector.go): configuration for the ffmpeg
silencedetect filter. -/
structure DetectionOptions where
  NoiseLevel : ℚ
  MinSilenceDuration : ℚ
  deriving DecidableEq

/-- `DetectionResult` (detector.go): detected intervals plus the input
duration recovered from the progress markers. -/
structure DetectionResult where
  Intervals : List SilenceInterval
  InputDuration : ℚ
  deriving DecidableEq

/-- The loop of `FullySilent` over `r.Intervals[1:]`: carries `prevEnd` and
returns `false` as soon as `interval.Start - prevEnd > tolerance`. -/
def silenceGapWalk (tolerance : ℚ) : ℚ → List SilenceInterval → Bool
  | _, [] => true
  | prevEnd, i :: rest =>
    if tolerance < i.Start - prevEnd then false
    else silenceGapWalk tolerance i.End rest

/-- `DetectionResult.FullySilent` (detector.go): whether the detected
intervals span the whole input duration, up to `tolerance`.  The Go code
first returns `false` when `r.InputDuration <= 0 || len(r.Intervals) == 0`;
here the empty-list case is the first `match` arm and the duration check
comes next, which is the same function. -/
def DetectionResult.FullySilent (r : DetectionResult) (tolerance : ℚ) : Bool :=
  match r.Intervals with
  | [] => false
  | first :: rest =>
    if r.InputDuration ≤ 0 then false
    else if tolerance < first.Start then false
    else if !silenceGapWalk tolerance first.End rest then false
    else if tolerance < |((first :: rest).getLastD first).End - r.InputDuration| then false
    else true

/-! ### Character classes and line splitting -/

/-- ASCII decimal digit, the `[0-9]` class of the three patterns. -/
def isAsciiDigit (c : Char) : Bool := '0' ≤ c && c ≤ '9'

/-- The `\s` class of Go's `regexp` package: `[\t\n\f\r ]`. -/
def isRegexSpace (c : Char) : Bool :=
  c = ' ' || c = '\t' || c = '\n' || c = '\x0c' || c = '\r'

/-- `unicode.IsSpace`, as used by `strings.TrimSpace`: the Unicode
White_Space property (codepoints listed numerically). -/
def isUnicodeSpace (c : Char) : Bool :=
  c.toNat = 0x20 || (0x9 ≤ c.toNat && c.toNat ≤ 0xd) ||
  c.toNat = 0x85 || c.toNat = 0xa0 || c.toNat = 0x1680 ||
  (0x2000 ≤ c.toNat && c.toNat ≤ 0x200a) ||
  c.toNat = 0x2028 || c.toNat = 0x2029 || c.toNat = 0x202f ||
  c.toNat = 0x205f || c.toNat = 0x3000

/-- `strings.TrimSpace`: drop Unicode white space from both ends. -/
def trimSpace (cs : List Char) : List Char :=
  ((cs.dropWhile isUnicodeSpace).reverse.dropWhile isUnicodeSpace).reverse

/-- `strings.Split(output, "\n")`: split on newline characters, keeping
empty pieces; the empty string yields one empty piece. -/
def splitOnNewline : List Char → List (List Char)
  | [] => [[]]
  | c :: cs =>
    if c = '\n' then [] :: splitOnNewline cs
    else
      match splitOnNewline cs with
      | [] => [[c]]
      | l :: ls => (c :: l) :: ls

/-! ### Number scanning and `strconv.ParseFloat` -/

/-- Value of a string of ASCII digits, most significant first. -/
def natOfDigits (ds : List Char) : ℕ :=
  ds.foldl (fun acc c => acc * 10 + (c.toNat - '0'.toNat)) 0

/-- Greedy scan of `[0-9]+(?:\.[0-9]+)?` at the head of the input: returns
the integer digits, the optional fraction digits, and the unconsumed rest.
Fails when no digit is present. -/
def scanNumber (cs : List Char) : Option ((List Char × Option (List Char)) × List Char) :=
  let intPart := cs.takeWhile isAsciiDigit
  let rest0 := cs.dropWhile isAsciiDigit
  if intPart.isEmpty then none
  else
    match rest0 with
    | '.' :: cs2 =>
      let frac := cs2.takeWhile isAsciiDigit
      if frac.isEmpty then some ((intPart, none), rest0)
      else some ((intPart, some frac), cs2.dropWhile isAsciiDigit)
    | _ => some ((intPart, none), rest0)

/-- The text of a scanned number, i.e. the capture group submatch the Go
code hands to `strconv.ParseFloat`. -/
def renderNum (ip : List Char) (fp : Option (List Char)) : List Char :=
  ip ++ (match fp with | none => [] | some f => '.' :: f)

/-- Exact rational value of a decimal literal with the given integer and
fraction digits. -/
def ratOfParts (ip : List Char) (fp : Option (List Char)) : ℚ :=
  (natOfDigits ip : ℚ) +
    (match fp with | none => 0 | some f => (natOfDigits f : ℚ) / ((10 ^ f.length : ℕ) : ℚ))

/-- Failure modes of `strconv.ParseFloat`: `ErrSyntax` and `ErrRange`. -/
inductive FloatErr where
  | syntaxErr
  | rangeErr
  deriving DecidableEq

/-- The smallest non-negative decimal value on which `strconv.ParseFloat`
(..., 64) overflows: values at least `2^1024 - 2^970` round to `+Inf`
under IEEE 754 round-to-nearest-even and yield `ErrRange`. -/
def float64OverflowBound : ℚ := ((2 ^ 1024 - 2 ^ 970 : ℕ) : ℚ)

/-- `strconv.ParseFloat(s, 64)` on the sub-language of non-negative decimal
literals `[0-9]+(\.[0-9]+)?` (the only call sites are regexp captures of
that shape): error on anything else, error on overflow, otherwise the exact
value. -/
def parseFloatGo (s : List Char) : Except FloatErr ℚ :=
  match scanNumber s with
  | none => .error .syntaxErr
  | some ((ip, fp), rest) =>
    if rest.isEmpty then
      if float64OverflowBound ≤ ratOfParts ip fp then .error .rangeErr
      else .ok (ratOfParts ip fp)
    else .error .syntaxErr

/-! ### The three patterns -/

/-- Literal head of `silenceStartPattern`. -/
def silenceStartMarker : List Char := "silence_start:".data

/-- Literal head of `silenceEndPattern`. -/
def silenceEndMarker : List Char := "silence_end:".data

/-- The second literal of `silenceEndPattern`. -/
def silenceDurationMarker : List Char := "silence_duration:".data

/-- Literal head of `progressTimePattern`. -/
def progressTimeMarker : List Char := "time=".data

/-- Leftmost unanchored match: every one of the three patterns starts with a
fixed literal `marker`, so Go's leftmost-first match begins at the first
occurrence of `marker` whose continuation satisfies the rest of the pattern
(`payload`); later occurrences are tried when the continuation fails. -/
def findPattern {α : Type} (marker : List Char) (payload : List Char → Option α) :
    List Char → Option α
  | [] => none
  | c :: cs =>
    match (if marker.isPrefixOf (c :: cs) then payload (List.drop marker.length (c :: cs)) else none) with
    | some a => some a
    | none => findPattern marker payload cs

/-- Continuation of `silenceStartPattern` after its marker:
`\s*([0-9]+(?:\.[0-9]+)?)`; returns the capture. -/
def scanStartPayload (cs : List Char) : Option (List Char) :=
  match scanNumber (cs.dropWhile isRegexSpace) with
  | none => none
  | some ((ip, fp), _) => some (renderNum ip fp)

/-- Continuation of `silenceEndPattern` after its marker:
`\s*(num)\s*\|\s*silence_duration:\s*(num)`; returns both captures. -/
def scanEndPayload (cs : List Char) : Option (List Char × List Char) :=
  match scanNumber (cs.dropWhile isRegexSpace) with
  | none => none
  | some ((ip1, fp1), r1) =>
    match r1.dropWhile isRegexSpace with
    | '|' :: r2 =>
      let r3 := r2.dropWhile isRegexSpace
      if silenceDurationMarker.isPrefixOf r3 then
        match scanNumber ((r3.drop silenceDurationMarker.length).dropWhile isRegexSpace) with
        | none => none
        | some ((ip2, fp2), _) => some (renderNum ip1 fp1, renderNum ip2 fp2)
      else none
    | _ => none

/-- Exactly two ASCII digits, the `[0-9]{2}` groups of
`progressTimePattern`. -/
def scanTwoDigits : List Char → Option (List Char × List Char)
  | a :: b :: rest => if isAsciiDigit a && isAsciiDigit b then some ([a, b], rest) else none
  | _ => none

/-- Continuation of `progressTimePattern` after `time=`:
`([0-9]{2}):([0-9]{2}):([0-9]+(?:\.[0-9]+)?)`; returns the three
captures. -/
def scanProgressPayload (cs : List Char) : Option (List Char × List Char × List Char) :=
  match scanTwoDigits cs with
  | none => none
  | some (hh, r1) =>
    match r1 with
    | ':' :: r2 =>
      match scanTwoDigits r2 with
      | none => none
      | some (mm, r3) =>
        match r3 with
        | ':' :: r4 =>
          match scanNumber r4 with
          | none => none
          | some ((ip, fp), _) => some (hh, mm, renderNum ip fp)
        | _ => none
    | _ => none

/-! ### Events, classification, and the parsing fold -/

/-- The three event kinds a line of ffmpeg output can carry. -/
inductive FfmpegEvent where
  | silenceStart (t : ℚ)
  | silenceEnd (endTime dur : ℚ)
  | progress (t : ℚ)
  deriving DecidableEq

/-- The error returns of `parseSilenceOutput`, one per `strconv.ParseFloat`
call site ("parse silence start", "parse silence end", "parse silence
duration", "parse progress seconds"); the `strconv.Atoi` sites for hours
and minutes receive exactly two ASCII digits and cannot fail. -/
inductive ParseErr where
  | startErr (e : FloatErr)
  | endErr (e : FloatErr)
  | durationErr (e : FloatErr)
  | secondsErr (e : FloatErr)
  deriving DecidableEq

/-- The underlying `strconv.ParseFloat` failure of a parse error. -/
def ParseErr.cause : ParseErr → FloatErr
  | .startErr e => e
  | .endErr e => e
  | .durationErr e => e
  | .secondsErr e => e

/-- One iteration of the line loop of `parseSilenceOutput`, up to the state
update: trim the line, skip it when empty, try the three patterns in the
source's order, and run the `ParseFloat`/`Atoi` conversions on the
captures.  Returns the classified event, `none` for a contributing
nothing, or the first conversion error. -/
def classifyLine (rawLine : List Char) : Except ParseErr (Option FfmpegEvent) :=
  let line := trimSpace rawLine
  if line.isEmpty then .ok none
  else
    match findPattern silenceStartMarker scanStartPayload line with
    | some cap =>
      match parseFloatGo cap with
      | .error e => .error (.startErr e)
      | .ok t => .ok (some (.silenceStart t))
    | none =>
      match findPattern silenceEndMarker scanEndPayload line with
      | some (capEnd, capDur) =>
        match parseFloatGo capEnd with
        | .error e => .error (.endErr e)
        | .ok endT =>
          match parseFloatGo capDur with
          | .error e => .error (.durationErr e)
          | .ok dur => .ok (some (.silenceEnd endT dur))
      | none =>
        match findPattern progressTimeMarker scanProgressPayload line with
        | some (hh, mm, secCap) =>
          match parseFloatGo secCap with
          | .error e => .error (.secondsErr e)
          | .ok secs =>
            .ok (some (.progress ((natOfDigits hh * 3600 + natOfDigits mm * 60 : ℕ) + secs)))
        | none => .ok none

/-- The local state of `parseSilenceOutput`'s loop: the intervals collected
so far, the pending `currentStart` pointer, and `lastProgress`. -/
structure ParseState where
  intervals : List SilenceInterval
  currentStart : Option ℚ
  lastProgress : ℚ
  deriving DecidableEq

/-- The initial loop state: no intervals, no pending start, progress 0. -/
def initState : ParseState := ⟨[], none, 0⟩

/-- The state update of `parseSilenceOutput`'s loop for one classified
event: a start marker (over)writes `currentStart`; an end marker appends an
interval whose start falls back to `end - dur` when no start is pending and
clears `currentStart`; a progress marker overwrites `lastProgress`. -/
def stepEvent (st : ParseState) : FfmpegEvent → ParseState
  | .silenceStart t => { st with currentStart := some t }
  | .silenceEnd endT dur =>
    let start := match st.currentStart with
      | some s => s
      | none => endT - dur
    { st with
      intervals := st.intervals ++ [⟨start, endT, dur⟩]
      currentStart := none }
  | .progress t => { st with lastProgress := t }

/-- One full iteration of the line loop: classification followed by the
state update. -/
def processLine (st : ParseState) (rawLine : List Char) : Except ParseErr ParseState :=
  match classifyLine rawLine with
  | .error e => .error e
  | .ok none => .ok st
  | .ok (some ev) => .ok (stepEvent st ev)

/-- The line loop of `parseSilenceOutput`: fold `processLine` over the
lines, stopping at the first error. -/
def runLines (st : ParseState) : List (List Char) → Except ParseErr ParseState
  | [] => .ok st
  | l :: ls =>
    match processLine st l with
    | .error e => .error e
    | .ok st2 => runLines st2 ls

/-- The epilogue of `parseSilenceOutput`: when a start is still pending and
`lastProgress` moved strictly past it, synthesize the trailing interval. -/
def finalize (st : ParseState) : List SilenceInterval :=
  match st.currentStart with
  | some s =>
    if s < st.lastProgress then
      st.intervals ++ [⟨s, st.lastProgress, st.lastProgress - s⟩]
    else st.intervals
  | none => st.intervals

/-- `parseSilenceOutput` (detector.go): split the captured output on
newlines, fold the line loop, synthesize a trailing interval if needed, and
return the intervals with `lastProgress` as the input duration. -/
def parseSilenceOutput (output : String) : Except ParseErr (List SilenceInterval × ℚ) :=
  match runLines initState (splitOnNewline output.data) with
  | .error e => .error e
  | .ok st => .ok (finalize st, st.lastProgress)

/-! ### The orchestrator `DetectSilence` -/

/-- The data `DetectSilence` passes to its command runner.  The Go code
renders `options` into textual ffmpeg arguments with
`strconv.FormatFloat`; the rendering is injective on the data carried
here, so the invocation record keeps the data unrendered. -/
structure FfmpegInvocation where
  binary : String
  inputPath : String
  options : DetectionOptions

/-- The errors `DetectSilence` can return. -/
inductive DetectErr where
  | emptyInputPath
  | nonPositiveMinSilenceDuration
  | ffmpegFailed (msg : String)
  | parseFailed (e : ParseErr)

/-- The `Detector` struct: an ffmpeg path and a replaceable command runner
(`CommandRunner`), which returns either the captured combined output or an
execution error. -/
structure GoDetector where
  ffmpegPath : String
  run : FfmpegInvocation → Except String String

/-- `Detector.DetectSilence` (detector.go): validate the input path and the
minimum silence duration, then run ffmpeg and parse its output.  Mirrors
Go's `(DetectionResult, error)` return as a pair of the result (zero value
on failure) and an optional error. -/
def DetectSilence (d : GoDetector) (inputPath : String) (options : DetectionOptions) :
    DetectionResult × Option DetectErr :=
  if inputPath = "" then (⟨[], 0⟩, some .emptyInputPath)
  else if options.MinSilenceDuration ≤ 0 then (⟨[], 0⟩, some .nonPositiveMinSilenceDuration)
  else
    match d.run ⟨d.ffmpegPath, inputPath, options⟩ with
    | .error msg => (⟨[], 0⟩, some (.ffmpegFailed msg))
    | .ok output =>
      match parseSilenceOutput output with
      | .error e => (⟨[], 0⟩, some (.parseFailed e))
      | .ok (ivs, dur) => (⟨ivs, dur⟩, none)

/-! ### Helper lemmas -/

lemma getLast?_cons_eq_getLastD (a : α) (l : List α) :
    (a :: l).getLast? = some ((a :: l).getLastD a) := by
  induction l generalizing a with
  | nil => rfl
  | cons b l ih => rw [List.getLast?_cons_cons, ih b]; simp [List.getLastD]

lemma chain_gap_end_congr (tol : ℚ) (a a2 : SilenceInterval) (h : a.End = a2.End)
    (l : List SilenceInterval) :
    List.Chain (fun x y => y.Start - x.End ≤ tol) a l ↔
      List.Chain (fun x y => y.Start - x.End ≤ tol) a2 l := by
  cases l with
  | nil => simp
  | cons b bs => simp [List.chain_cons, h]

lemma silenceGapWalk_iff (tol : ℚ) (l : List SilenceInterval) : ∀ pe : ℚ,
    silenceGapWalk tol pe l = true ↔
      List.Chain (fun x y => y.Start - x.End ≤ tol) ⟨pe, pe, 0⟩ l := by
  induction l with
  | nil => intro pe; simp [silenceGapWalk]
  | cons i rest ih =>
    intro pe
    simp only [silenceGapWalk, List.chain_cons]
    by_cases h : tol < i.Start - pe
    · simp only [if_pos h, SilenceInterval.End]
      constructor
      · intro hf; exact absurd hf (by simp)
      · rintro ⟨h1, -⟩; exact absurd h (not_lt.mpr h1)
    · rw [if_neg h, ih i.End,
        chain_gap_end_congr tol (⟨i.End, i.End, 0⟩ : SilenceInterval) i rfl]
      have h1 : i.Start - pe ≤ tol := not_lt.mp h
      exact ⟨fun hc => ⟨h1, hc⟩, fun hc => hc.2⟩

/-! ### Claim C1 -/

/-- C1: for every `DetectionResult` `r` and tolerance `tol ≥ 0`,
`FullySilent tol` returns `true` iff `r.InputDuration > 0`, `r.Intervals`
is non-empty, the first interval starts no later than `tol`, every
consecutive gap `later.Start - earlier.End` is at most `tol` (overlaps,
i.e. negative gaps, accepted), and the last interval's end differs from
`r.InputDuration` by at most `tol` in absolute value. -/
theorem claim_C1 (r : DetectionResult) (tol : ℚ) (htol : 0 ≤ tol) :
    r.FullySilent tol = true ↔
      (0 < r.InputDuration ∧ r.Intervals ≠ [] ∧
        (∀ f, r.Intervals.head? = some f → f.Start ≤ tol) ∧
        List.Chain' (fun a b => b.Start - a.End ≤ tol) r.Intervals ∧
        (∀ lst, r.Intervals.getLast? = some lst → |lst.End - r.InputDuration| ≤ tol)) := by
  obtain ⟨ivs, dur⟩ := r
  cases ivs with
  | nil => simp [DetectionResult.FullySilent]
  | cons first rest =>
    simp only [DetectionResult.FullySilent]
    rw [getLast?_cons_eq_getLastD]
    by_cases hdur : dur ≤ 0
    · simp only [if_pos hdur]
      constructor
      · intro hf; exact absurd hf (by simp)
      · rintro ⟨h1, -⟩; exact absurd h1 (not_lt.mpr hdur)
    · rw [if_neg hdur]
      by_cases hfs : tol < first.Start
      · simp only [if_pos hfs]
        constructor
        · intro hf; exact absurd hf (by simp)
        · rintro ⟨-, -, hhead, -⟩
          have := hhead first (by simp)
          exact absurd hfs (not_lt.mpr this)
      · rw [if_neg hfs]
        by_cases hwalk : silenceGapWalk tol first.End rest = true
        · rw [hwalk]
          simp only [Bool.not_true, Bool.false_eq_true, if_false]
          by_cases hlast : tol < |((first :: rest).getLastD first).End - dur|
          · simp only [if_pos hlast]
            constructor
            · intro hf; exact absurd hf (by simp)
            · rintro ⟨-, -, -, -, hl⟩
              have := hl ((first :: rest).getLastD first) rfl
              exact absurd hlast (not_lt.mpr this)
          · rw [if_neg hlast]
            have hchain : List.Chain' (fun a b => b.Start - a.End ≤ tol) (first :: rest) := by
              have := (silenceGapWalk_iff tol rest first.End).mp hwalk
              exact (chain_gap_end_congr tol
                (⟨first.End, first.End, 0⟩ : SilenceInterval) first rfl rest).mp this
            refine iff_of_true rfl ?_
            refine ⟨not_le.mp hdur, by simp, ?_, hchain, ?_⟩
            · intro f hf
              simp only [List.head?_cons, Option.some.injEq] at hf
              exact hf ▸ not_lt.mp hfs
            · intro lst hlst
              simp only [Option.some.injEq] at hlst
              exact hlst ▸ not_lt.mp hlast
        · have hwf : silenceGapWalk tol first.End rest = false :=
            Bool.eq_false_iff.mpr hwalk
          rw [hwf]
          simp only [Bool.not_false, if_true]
          constructor
          · intro hf; exact absurd hf (by simp)
          · rintro ⟨-, -, -, hchain, -⟩
            have : List.Chain (fun x y => y.Start - x.End ≤ tol)
                (⟨first.End, first.End, 0⟩ : SilenceInterval) rest :=
              (chain_gap_end_congr tol
                (⟨first.End, first.End, 0⟩ : SilenceInterval) first rfl rest).mpr hchain
            exact (hwalk ((silenceGapWalk_iff tol rest first.End).mpr this)).elim

/-- Witness for C1: the concrete three-interval result from the repository's
own test, at tolerance `0`. -/
theorem claim_C1_witness :
    (0 < (⟨[⟨0,2,2⟩,⟨2,4,2⟩,⟨4,6,2⟩], 6⟩ : DetectionResult).InputDuration ∧
      (⟨[⟨0,2,2⟩,⟨2,4,2⟩,⟨4,6,2⟩], 6⟩ : DetectionResult).Intervals ≠ [] ∧
      (∀ f, (⟨[⟨0,2,2⟩,⟨2,4,2⟩,⟨4,6,2⟩], 6⟩ : DetectionResult).Intervals.head? = some f →
        f.Start ≤ 0) ∧
      List.Chain' (fun a b => b.Start - a.End ≤ 0)
        (⟨[⟨0,2,2⟩,⟨2,4,2⟩,⟨4,6,2⟩], 6⟩ : DetectionResult).Intervals ∧
      (∀ lst, (⟨[⟨0,2,2⟩,⟨2,4,2⟩,⟨4,6,2⟩], 6⟩ : DetectionResult).Intervals.getLast? = some lst →
        |lst.End - (⟨[⟨0,2,2⟩,⟨2,4,2⟩,⟨4,6,2⟩], 6⟩ : DetectionResult).InputDuration| ≤ 0)) :=
  (claim_C1 ⟨[⟨0,2,2⟩,⟨2,4,2⟩,⟨4,6,2⟩], 6⟩ 0 (le_refl 0)).mp (by decide)

/-! ### Event-level view of the line loop -/

/-- The per-line classifications of a list of lines, stopping at the first
error; the event order matches the line order. -/
def classifyLines : List (List Char) → Except ParseErr (List FfmpegEvent)
  | [] => .ok []
  | l :: ls =>
    match classifyLine l with
    | .error e => .error e
    | .ok none => classifyLines ls
    | .ok (some ev) =>
      match classifyLines ls with
      | .error e => .error e
      | .ok evs => .ok (ev :: evs)

/-- The line loop is classification followed by the event fold
(classification is stateless, so the interleaved loop and the staged
pipeline agree, including on which error is hit first). -/
lemma runLines_eq_classifyLines (ls : List (List Char)) : ∀ st : ParseState,
    runLines st ls =
      match classifyLines ls with
      | .error e => .error e
      | .ok evs => .ok (List.foldl stepEvent st evs) := by
  induction ls with
  | nil => intro st; simp [runLines, classifyLines]
  | cons l ls ih =>
    intro st
    cases hcl : classifyLine l with
    | error e => simp only [runLines, processLine, classifyLines, hcl]
    | ok oev =>
      cases oev with
      | none => simp only [runLines, processLine, classifyLines, hcl]; exact ih st
      | some ev =>
        simp only [runLines, processLine, classifyLines, hcl]
        rw [ih (stepEvent st ev)]
        cases classifyLines ls with
        | error e => rfl
        | ok evs => simp [List.foldl]

/-- `parseSilenceOutput` through the event-level pipeline. -/
lemma parseSilenceOutput_eq_events (s : String) :
    parseSilenceOutput s =
      match classifyLines (splitOnNewline s.data) with
      | .error e => .error e
      | .ok evs =>
        .ok (finalize (List.foldl stepEvent initState evs),
          (List.foldl stepEvent initState evs).lastProgress) := by
  unfold parseSilenceOutput
  rw [runLines_eq_classifyLines]
  cases classifyLines (splitOnNewline s.data) <;> rfl

/-- Folding events that are neither start nor end markers changes neither
the pending start nor the collected intervals. -/
lemma foldl_stepEvent_of_no_marks (evs : List FfmpegEvent)
    (h : ∀ e ∈ evs, (∀ x, e ≠ .silenceStart x) ∧ ∀ x y, e ≠ .silenceEnd x y) :
    ∀ st : ParseState,
      (List.foldl stepEvent st evs).currentStart = st.currentStart ∧
      (List.foldl stepEvent st evs).intervals = st.intervals := by
  induction evs with
  | nil => intro st; exact ⟨rfl, rfl⟩
  | cons e evs ih =>
    intro st
    have he := h e (List.mem_cons_self e evs)
    have hrest : ∀ e2 ∈ evs, (∀ x, e2 ≠ FfmpegEvent.silenceStart x) ∧
        ∀ x y, e2 ≠ FfmpegEvent.silenceEnd x y :=
      fun e2 hm => h e2 (List.mem_cons_of_mem e hm)
    cases e with
    | silenceStart t => exact absurd rfl (he.1 t)
    | silenceEnd x y => exact absurd rfl (he.2 x y)
    | progress t => simpa [stepEvent] using ih hrest { st with lastProgress := t }

/-! ### Claim C3 -/

/-- C3: processing a `SilenceEnd(end, dur)` event with no pending start
appends `{end - dur, end, dur}`; with a pending `SilenceStart(t)` it
appends `{t, end, dur}` and clears the pending start. -/
theorem claim_C3 (st : ParseState) (endT dur : ℚ) :
    (st.currentStart = none →
      stepEvent st (.silenceEnd endT dur) =
        { st with
          intervals := st.intervals ++ [⟨endT - dur, endT, dur⟩]
          currentStart := none }) ∧
    (∀ t, st.currentStart = some t →
      stepEvent st (.silenceEnd endT dur) =
        { st with
          intervals := st.intervals ++ [⟨t, endT, dur⟩]
          currentStart := none }) := by
  constructor
  · intro h; simp [stepEvent, h]
  · intro t h; simp [stepEvent, h]

/-- Witness for C3: one end event against an empty state (fallback start)
and one against a state with a pending start. -/
theorem claim_C3_witness :
    stepEvent ⟨[], none, 0⟩ (.silenceEnd 5 2) = (⟨[⟨3, 5, 2⟩], none, 0⟩ : ParseState) ∧
    stepEvent ⟨[], some 1, 0⟩ (.silenceEnd 5 2) = (⟨[⟨1, 5, 2⟩], none, 0⟩ : ParseState) :=
  ⟨((claim_C3 ⟨[], none, 0⟩ 5 2).1 rfl).trans (by decide),
    ((claim_C3 ⟨[], some 1, 0⟩ 5 2).2 1 rfl).trans (by decide)⟩

/-! ### Claim C8 -/

/-- C8: the empty text blob parses to no intervals and duration `0`, and a
line matching none of the three marker shapes contributes no event: the
line loop gives the same outcome with or without it, from any state. -/
theorem claim_C8 :
    parseSilenceOutput "" = .ok ([], 0) ∧
    ∀ (st : ParseState) (xs ys : List (List Char)) (l : List Char),
      classifyLine l = .ok none →
      runLines st (xs ++ l :: ys) = runLines st (xs ++ ys) := by
  constructor
  · decide
  · intro st xs ys l h
    induction xs generalizing st with
    | nil => simp [runLines, processLine, h]
    | cons x xs ih =>
      simp only [List.cons_append, runLines]
      cases processLine st x with
      | error e => rfl
      | ok st2 => exact ih st2

/-- Witness for C8: inserting a marker-free ffmpeg log line does not change
the run. -/
theorem claim_C8_witness :
    runLines initState ("silence_start: 1".data :: "no markers here".data :: []) =
      runLines initState ("silence_start: 1".data :: []) :=
  claim_C8.2 initState ["silence_start: 1".data] [] "no markers here".data (by decide)

/-! ### Claim C9 -/

/-- C9: with `MinSilenceDuration ≤ 0`, `DetectSilence` returns an error and
the zero result, and does so without consulting the command runner (the
outcome does not depend on it), hence without parsing any output. -/
theorem claim_C9 (d : GoDetector) (inputPath : String) (options : DetectionOptions)
    (h : options.MinSilenceDuration ≤ 0) :
    (DetectSilence d inputPath options).2.isSome = true ∧
    (DetectSilence d inputPath options).1 = ⟨[], 0⟩ ∧
    ∀ run2 : FfmpegInvocation → Except String String,
      DetectSilence ⟨d.ffmpegPath, run2⟩ inputPath options =
        DetectSilence d inputPath options := by
  have key : ∀ r : FfmpegInvocation → Except String String,
      DetectSilence ⟨d.ffmpegPath, r⟩ inputPath options =
        if inputPath = "" then ((⟨[], 0⟩ : DetectionResult), some DetectErr.emptyInputPath)
        else ((⟨[], 0⟩ : DetectionResult), some DetectErr.nonPositiveMinSilenceDuration) := by
    intro r
    unfold DetectSilence
    by_cases hp : inputPath = ""
    · rw [if_pos hp, if_pos hp]
    · rw [if_neg hp, if_neg hp, if_pos h]
  have hd : DetectSilence d inputPath options =
      if inputPath = "" then ((⟨[], 0⟩ : DetectionResult), some DetectErr.emptyInputPath)
      else ((⟨[], 0⟩ : DetectionResult), some DetectErr.nonPositiveMinSilenceDuration) :=
    key d.run
  refine ⟨?_, ?_, fun run2 => (key run2).trans hd.symm⟩
  · rw [hd]; by_cases hp : inputPath = "" <;> simp [hp]
  · rw [hd]; by_cases hp : inputPath = "" <;> simp [hp]

/-- Witness for C9: a concrete detector with `MinSilenceDuration = 0`
errors out with the zero result. -/
theorem claim_C9_witness :
    (DetectSilence ⟨"ffmpeg", fun _ => Except.ok ""⟩ "video.mp4" ⟨-30, 0⟩).2.isSome = true ∧
    (DetectSilence ⟨"ffmpeg", fun _ => Except.ok ""⟩ "video.mp4" ⟨-30, 0⟩).1 = ⟨[], 0⟩ :=
  ⟨(claim_C9 ⟨"ffmpeg", fun _ => Except.ok ""⟩ "video.mp4" ⟨-30, 0⟩ (by norm_num)).1,
    (claim_C9 ⟨"ffmpeg", fun _ => Except.ok ""⟩ "video.mp4" ⟨-30, 0⟩ (by norm_num)).2.1⟩

/-! ### Finalization helpers -/

/-- `finalize` on a state with pending start `t`: append the trailing
interval exactly when `lastProgress` moved strictly past `t`. -/
lemma finalize_of_some (st : ParseState) (t : ℚ) (h : st.currentStart = some t) :
    finalize st = st.intervals ++
      (if t < st.lastProgress
        then [⟨t, st.lastProgress, st.lastProgress - t⟩] else []) := by
  have hbase : finalize st =
      if t < st.lastProgress
        then st.intervals ++ [⟨t, st.lastProgress, st.lastProgress - t⟩]
        else st.intervals := by
    unfold finalize; rw [h]
  rw [hbase]
  by_cases hlt : t < st.lastProgress
  · rw [if_pos hlt, if_pos hlt]
  · rw [if_neg hlt, if_neg hlt, List.append_nil]

/-- `finalize` on a state with no pending start returns the intervals
unchanged. -/
lemma finalize_of_none (st : ParseState) (h : st.currentStart = none) :
    finalize st = st.intervals := by
  unfold finalize; rw [h]

/-! ### Claim C2 -/

/-- C2: when the classified events of the input are `l` followed by a
`SilenceStart(t)` followed by events `r` containing neither a `SilenceEnd`
nor a further `SilenceStart` (the dangling-start reading of the claim),
the start is still pending at end of stream and the parse result is the
folded intervals plus exactly one synthesized trailing interval
`{t, p, p - t}` when the last observed progress `p` satisfies `p > t`, and
no trailing interval otherwise (in particular when no progress marker was
seen, since then `p = 0 ≤ t`). -/
theorem claim_C2 (s : String) (l r : List FfmpegEvent) (t : ℚ) (st : ParseState)
    (hev : classifyLines (splitOnNewline s.data) = .ok (l ++ FfmpegEvent.silenceStart t :: r))
    (hr : ∀ e ∈ r, (∀ x, e ≠ FfmpegEvent.silenceStart x) ∧
      ∀ x y, e ≠ FfmpegEvent.silenceEnd x y)
    (hst : st = List.foldl stepEvent initState (l ++ FfmpegEvent.silenceStart t :: r)) :
    st.currentStart = some t ∧
    parseSilenceOutput s =
      .ok (st.intervals ++
        (if t < st.lastProgress
          then [⟨t, st.lastProgress, st.lastProgress - t⟩] else []),
        st.lastProgress) := by
  have hsplit : List.foldl stepEvent initState (l ++ FfmpegEvent.silenceStart t :: r) =
      List.foldl stepEvent
        (stepEvent (List.foldl stepEvent initState l) (FfmpegEvent.silenceStart t)) r := by
    rw [List.foldl_append, List.foldl_cons]
  have hfold := foldl_stepEvent_of_no_marks r hr
    (stepEvent (List.foldl stepEvent initState l) (FfmpegEvent.silenceStart t))
  have hcs : st.currentStart = some t := by
    rw [hst, hsplit, hfold.1]; rfl
  refine ⟨hcs, ?_⟩
  have hp : parseSilenceOutput s =
      .ok (finalize (List.foldl stepEvent initState
          (l ++ FfmpegEvent.silenceStart t :: r)),
        (List.foldl stepEvent initState (l ++ FfmpegEvent.silenceStart t :: r)).lastProgress) := by
    rw [parseSilenceOutput_eq_events s, hev]
  rw [hp, ← hst, finalize_of_some st t hcs]

/-- Witness for C2: a dangling start at `1` with a later progress marker at
`5` synthesizes the trailing interval `{1, 5, 4}`. -/
theorem claim_C2_witness :
    (⟨[], some 1, 5⟩ : ParseState).currentStart = some 1 ∧
    parseSilenceOutput "silence_start: 1\ntime=00:00:05.00" =
      .ok ((⟨[], some 1, 5⟩ : ParseState).intervals ++
        (if (1:ℚ) < (⟨[], some 1, 5⟩ : ParseState).lastProgress
          then [⟨1, (⟨[], some 1, 5⟩ : ParseState).lastProgress,
            (⟨[], some 1, 5⟩ : ParseState).lastProgress - 1⟩] else []),
        (⟨[], some 1, 5⟩ : ParseState).lastProgress) :=
  claim_C2 "silence_start: 1\ntime=00:00:05.00" [] [FfmpegEvent.progress 5] 1 ⟨[], some 1, 5⟩
    (by decide)
    (fun e he => by
      rw [List.mem_singleton] at he
      subst he
      exact ⟨fun x => by simp, fun x y => by simp⟩)
    (by decide)

/-! ### Claim C6 (corrected) -/

/-- The reported duration of every end marker agrees with the start the
reconstructor will use for it: tracking the pending start through the
events, each `SilenceEnd(e, d)` that meets a pending start `t` must have
`d = e - t` (ends with no pending start are automatically consistent,
since the code infers the start as `e - d`). -/
def consistentFrom : Option ℚ → List FfmpegEvent → Bool
  | _, [] => true
  | p, .silenceEnd e d :: rest =>
    (match p with
      | some t => decide (d = e - t)
      | none => true) && consistentFrom none rest
  | _, .silenceStart t :: rest => consistentFrom (some t) rest
  | p, .progress _ :: rest => consistentFrom p rest

/-- Folding duration-consistent events preserves the duration identity of
every collected interval. -/
lemma foldl_duration_identity (evs : List FfmpegEvent) : ∀ st : ParseState,
    consistentFrom st.currentStart evs = true →
    (∀ i ∈ st.intervals, i.Duration = i.End - i.Start) →
    ∀ i ∈ (List.foldl stepEvent st evs).intervals, i.Duration = i.End - i.Start := by
  induction evs with
  | nil => intro st _ hbase; exact hbase
  | cons e evs ih =>
    intro st hcons hbase
    cases e with
    | silenceStart t =>
      rw [List.foldl_cons]
      exact ih { st with currentStart := some t } hcons hbase
    | silenceEnd endT dur =>
      rw [List.foldl_cons]
      have hcons2 : ((match st.currentStart with
          | some t => decide (dur = endT - t)
          | none => true) && consistentFrom none evs) = true := hcons
      rw [Bool.and_eq_true] at hcons2
      cases hcs : st.currentStart with
      | none =>
        refine ih _ (by simpa [stepEvent, hcs] using hcons2.2) ?_
        intro i hi
        simp only [stepEvent, hcs, List.mem_append, List.mem_singleton] at hi
        rcases hi with hi | rfl
        · exact hbase i hi
        · simp
      | some t =>
        rw [hcs] at hcons2
        have hdur : dur = endT - t := of_decide_eq_true hcons2.1
        refine ih _ (by simpa [stepEvent, hcs] using hcons2.2) ?_
        intro i hi
        simp only [stepEvent, hcs, List.mem_append, List.mem_singleton] at hi
        rcases hi with hi | rfl
        · exact hbase i hi
        · simpa using hdur
    | progress t =>
      rw [List.foldl_cons]
      exact ih { st with lastProgress := t } hcons hbase

/-- C6 (amended): the duration identity `Duration = End - Start` holds for
every emitted interval whenever every `SilenceEnd(e, d)` that consumes a
pending start `t` reports `d = e - t`; fallback-start intervals and the
synthesized trailing interval satisfy it unconditionally (the trailing
interval is handled here by `finalize`).  Without that consistency
hypothesis the identity fails, because the code stores the reported
duration verbatim next to the pending start. -/
theorem claim_C6 (s : String) (evs : List FfmpegEvent) (ivs : List SilenceInterval) (d : ℚ)
    (hev : classifyLines (splitOnNewline s.data) = .ok evs)
    (hcons : consistentFrom none evs = true)
    (hok : parseSilenceOutput s = .ok (ivs, d)) :
    ∀ i ∈ ivs, i.Duration = i.End - i.Start := by
  have hp : parseSilenceOutput s =
      .ok (finalize (List.foldl stepEvent initState evs),
        (List.foldl stepEvent initState evs).lastProgress) := by
    rw [parseSilenceOutput_eq_events s, hev]
  rw [hp] at hok
  have hivs : ivs = finalize (List.foldl stepEvent initState evs) := by
    injection hok with h1
    exact (congrArg Prod.fst h1).symm
  subst hivs
  have hbody := foldl_duration_identity evs initState hcons (by simp [initState])
  intro i hi
  cases hcs : (List.foldl stepEvent initState evs).currentStart with
  | none =>
    rw [finalize_of_none _ hcs] at hi
    exact hbody i hi
  | some t =>
    rw [finalize_of_some _ t hcs] at hi
    rw [List.mem_append] at hi
    rcases hi with hi | hi
    · exact hbody i hi
    · by_cases hlt : t < (List.foldl stepEvent initState evs).lastProgress
      · rw [if_pos hlt, List.mem_singleton] at hi
        subst hi; simp
      · rw [if_neg hlt] at hi
        exact absurd hi (List.not_mem_nil i)

/-- Witness for C6: a consistent start/end pair yields an interval whose
duration is exactly its end minus its start. -/
theorem claim_C6_witness :
    (⟨2, 5, 3⟩ : SilenceInterval).Duration =
      (⟨2, 5, 3⟩ : SilenceInterval).End - (⟨2, 5, 3⟩ : SilenceInterval).Start :=
  claim_C6 "silence_start: 2\nsilence_end: 5 | silence_duration: 3"
    [FfmpegEvent.silenceStart 2, FfmpegEvent.silenceEnd 5 3] [⟨2, 5, 3⟩] 0
    (by decide) (by decide) (by decide) ⟨2, 5, 3⟩ (by decide)

/-- Counterexample to C6 as stated: a reported duration that disagrees with
the marker pair is stored verbatim, so `Duration ≠ End - Start`. -/
theorem claim_C6_cex :
    parseSilenceOutput "silence_start: 1\nsilence_end: 5 | silence_duration: 2" =
      .ok ([⟨1, 5, 2⟩], 0) ∧
    ¬ ((⟨1, 5, 2⟩ : SilenceInterval).Duration =
        (⟨1, 5, 2⟩ : SilenceInterval).End - (⟨1, 5, 2⟩ : SilenceInterval).Start) :=
  ⟨by decide, by decide⟩

/-! ### Chronological inputs: ordering invariant -/

/-- The timestamps an event mentions, in their on-the-timeline order; an
end marker mentions the inferred fallback start `e - d` and the end `e`. -/
def eventTimes : FfmpegEvent → List ℚ
  | .silenceStart t => [t]
  | .silenceEnd e d => [e - d, e]
  | .progress t => [t]

/-- Folding a chronologically ordered event stream (all mentioned
timestamps non-decreasing, starting from the lower bound `b`) preserves:
every interval has `0 ≤ Start ≤ End`, the intervals are chained by
`End ≤ next.Start`, and a pending start is non-negative and no earlier
than the last interval's end. -/
lemma fold_sorted (evs : List FfmpegEvent) : ∀ (b : ℚ) (st : ParseState),
    List.Chain' (· ≤ ·) (b :: (evs.map eventTimes).flatten) →
    0 ≤ b →
    (∀ i ∈ st.intervals, 0 ≤ i.Start ∧ i.Start ≤ i.End) →
    List.Chain' (fun i j => i.End ≤ j.Start) st.intervals →
    (∀ i, st.intervals.getLast? = some i → i.End ≤ b) →
    (∀ t, st.currentStart = some t →
      0 ≤ t ∧ t ≤ b ∧ ∀ i, st.intervals.getLast? = some i → i.End ≤ t) →
    (∀ i ∈ (List.foldl stepEvent st evs).intervals, 0 ≤ i.Start ∧ i.Start ≤ i.End) ∧
    List.Chain' (fun i j => i.End ≤ j.Start) (List.foldl stepEvent st evs).intervals ∧
    (∀ t, (List.foldl stepEvent st evs).currentStart = some t →
      0 ≤ t ∧ ∀ i, (List.foldl stepEvent st evs).intervals.getLast? = some i → i.End ≤ t) := by
  induction evs with
  | nil =>
    intro b st _ _ hmem hchain _ hpend
    exact ⟨hmem, hchain, fun t ht => ⟨(hpend t ht).1, (hpend t ht).2.2⟩⟩
  | cons e evs ih =>
    intro b st hch hb hmem hchain hlast hpend
    rw [List.map_cons, List.flatten_cons] at hch
    cases e with
    | silenceStart t =>
      simp only [eventTimes, List.singleton_append] at hch
      rw [List.chain'_cons] at hch
      rw [List.foldl_cons]
      have hstep : stepEvent st (FfmpegEvent.silenceStart t) =
          { st with currentStart := some t } := rfl
      rw [hstep]
      refine ih t _ hch.2 (le_trans hb hch.1) hmem hchain
        (fun i hi => le_trans (hlast i hi) hch.1) ?_
      intro t2 ht2
      have : t = t2 := by simpa using ht2
      subst this
      exact ⟨le_trans hb hch.1, le_refl t,
        fun i hi => le_trans (hlast i hi) hch.1⟩
    | silenceEnd endT dur =>
      simp only [eventTimes, List.cons_append, List.singleton_append] at hch
      rw [List.chain'_cons] at hch
      obtain ⟨h1, hch2⟩ := hch
      rw [List.chain'_cons] at hch2
      obtain ⟨h2, hch3⟩ := hch2
      rw [List.foldl_cons]
      have hints : ∀ s0 : ℚ, 0 ≤ s0 → s0 ≤ endT →
          (∀ i, st.intervals.getLast? = some i → i.End ≤ s0) →
          (∀ i ∈ st.intervals ++ [(⟨s0, endT, dur⟩ : SilenceInterval)],
            0 ≤ i.Start ∧ i.Start ≤ i.End) ∧
          List.Chain' (fun i j => i.End ≤ j.Start)
            (st.intervals ++ [(⟨s0, endT, dur⟩ : SilenceInterval)]) := by
        intro s0 hs0 hs0e hlink
        constructor
        · intro i hi
          rw [List.mem_append, List.mem_singleton] at hi
          rcases hi with hi | rfl
          · exact hmem i hi
          · exact ⟨hs0, hs0e⟩
        · rw [List.chain'_append]
          refine ⟨hchain, List.chain'_singleton _, ?_⟩
          intro x hx y hy
          have hy2 : (⟨s0, endT, dur⟩ : SilenceInterval) = y := by simpa using hy
          subst hy2
          exact hlink x (by simpa using hx)
      cases hcs : st.currentStart with
      | none =>
        have hstep : stepEvent st (FfmpegEvent.silenceEnd endT dur) =
            { st with
              intervals := st.intervals ++ [⟨endT - dur, endT, dur⟩]
              currentStart := none } := by
          simp [stepEvent, hcs]
        rw [hstep]
        have hbase := hints (endT - dur) (le_trans hb h1) h2
          (fun i hi => le_trans (hlast i hi) h1)
        refine ih endT _ hch3 (le_trans (le_trans hb h1) h2) hbase.1 hbase.2 ?_ ?_
        · intro i hi
          rw [List.getLast?_concat] at hi
          have : (⟨endT - dur, endT, dur⟩ : SilenceInterval) = i := by simpa using hi
          subst this
          exact le_refl endT
        · intro t2 ht2
          exact absurd ht2 (by simp)
      | some u =>
        obtain ⟨hu0, hub, hulast⟩ := hpend u hcs
        have hstep : stepEvent st (FfmpegEvent.silenceEnd endT dur) =
            { st with
              intervals := st.intervals ++ [⟨u, endT, dur⟩]
              currentStart := none } := by
          simp [stepEvent, hcs]
        rw [hstep]
        have hue : u ≤ endT := le_trans hub (le_trans h1 h2)
        have hbase := hints u hu0 hue hulast
        refine ih endT _ hch3 (le_trans (le_trans hb h1) h2) hbase.1 hbase.2 ?_ ?_
        · intro i hi
          rw [List.getLast?_concat] at hi
          have : (⟨u, endT, dur⟩ : SilenceInterval) = i := by simpa using hi
          subst this
          exact le_refl endT
        · intro t2 ht2
          exact absurd ht2 (by simp)
    | progress t =>
      simp only [eventTimes, List.singleton_append] at hch
      rw [List.chain'_cons] at hch
      rw [List.foldl_cons]
      have hstep : stepEvent st (FfmpegEvent.progress t) =
          { st with lastProgress := t } := rfl
      rw [hstep]
      refine ih t _ hch.2 (le_trans hb hch.1) hmem hchain
        (fun i hi => le_trans (hlast i hi) hch.1) ?_
      intro t2 ht2
      have ht2s : st.currentStart = some t2 := ht2
      obtain ⟨h0, hbnd, hlnk⟩ := hpend t2 ht2s
      exact ⟨h0, le_trans hbnd hch.1, hlnk⟩

/-- The epilogue keeps the ordering facts: the synthesized trailing
interval (if any) starts at the pending start, which is non-negative and
no earlier than the last collected end, and ends strictly later. -/
lemma finalize_sorted (st : ParseState)
    (hmem : ∀ i ∈ st.intervals, 0 ≤ i.Start ∧ i.Start ≤ i.End)
    (hchain : List.Chain' (fun i j => i.End ≤ j.Start) st.intervals)
    (hpend : ∀ t, st.currentStart = some t →
      0 ≤ t ∧ ∀ i, st.intervals.getLast? = some i → i.End ≤ t) :
    (∀ i ∈ finalize st, 0 ≤ i.Start ∧ i.Start ≤ i.End) ∧
    List.Chain' (fun i j => i.End ≤ j.Start) (finalize st) := by
  cases hcs : st.currentStart with
  | none => rw [finalize_of_none st hcs]; exact ⟨hmem, hchain⟩
  | some t =>
    obtain ⟨ht0, htlast⟩ := hpend t hcs
    rw [finalize_of_some st t hcs]
    by_cases hlt : t < st.lastProgress
    · rw [if_pos hlt]
      constructor
      · intro i hi
        rw [List.mem_append, List.mem_singleton] at hi
        rcases hi with hi | rfl
        · exact hmem i hi
        · exact ⟨ht0, le_of_lt hlt⟩
      · rw [List.chain'_append]
        refine ⟨hchain, List.chain'_singleton _, ?_⟩
        intro x hx y hy
        have hy2 : (⟨t, st.lastProgress, st.lastProgress - t⟩ : SilenceInterval) = y := by
          simpa using hy
        subst hy2
        exact htlast x (by simpa using hx)
    · rw [if_neg hlt, List.append_nil]
      exact ⟨hmem, hchain⟩

/-- From `End ≤ next.Start` links and `Start ≤ End` within each interval,
the starts are non-decreasing. -/
lemma chain_start_of_chain_end (l : List SilenceInterval)
    (hse : ∀ i ∈ l, i.Start ≤ i.End)
    (hc : List.Chain' (fun i j => i.End ≤ j.Start) l) :
    List.Chain' (fun i j => i.Start ≤ j.Start) l := by
  induction l with
  | nil => simp
  | cons a l ih =>
    cases l with
    | nil => simp
    | cons b m =>
      rw [List.chain'_cons] at hc ⊢
      refine ⟨le_trans (hse a (by simp)) hc.1, ?_⟩
      exact ih (fun i hi => hse i (List.mem_cons_of_mem a hi)) hc.2

/-! ### Claim C5 (corrected) -/

/-- C5 (amended): the code performs no ordering validation, so the output
is chronological only for chronologically consistent inputs: when all
timestamps mentioned by the classified events (including each end marker's
inferred fallback start `e - d`) are non-negative and non-decreasing in
text order, the emitted intervals satisfy `previous.End ≤ next.Start` and
are non-decreasing in `Start`.  On inputs whose markers are out of order
the property fails (see the counterexample). -/
theorem claim_C5 (s : String) (evs : List FfmpegEvent) (ivs : List SilenceInterval) (d : ℚ)
    (hev : classifyLines (splitOnNewline s.data) = .ok evs)
    (hchron : List.Chain' (· ≤ ·) (0 :: (evs.map eventTimes).flatten))
    (hok : parseSilenceOutput s = .ok (ivs, d)) :
    List.Chain' (fun i j => i.End ≤ j.Start) ivs ∧
    List.Chain' (fun i j => i.Start ≤ j.Start) ivs := by
  have hp : parseSilenceOutput s =
      .ok (finalize (List.foldl stepEvent initState evs),
        (List.foldl stepEvent initState evs).lastProgress) := by
    rw [parseSilenceOutput_eq_events s, hev]
  rw [hp] at hok
  have hivs : ivs = finalize (List.foldl stepEvent initState evs) := by
    injection hok with h1
    exact (congrArg Prod.fst h1).symm
  subst hivs
  have hs := fold_sorted evs 0 initState hchron (le_refl 0)
    (fun i hi => absurd hi (List.not_mem_nil i))
    List.chain'_nil
    (fun i hi => absurd hi (by simp [initState]))
    (fun t ht => absurd ht (by simp [initState]))
  obtain ⟨hmem, hchain, hpend⟩ := hs
  have hfin := finalize_sorted _ hmem hchain (fun t ht => hpend t ht)
  exact ⟨hfin.2, chain_start_of_chain_end _ (fun i hi => (hfin.1 i hi).2) hfin.2⟩

/-- Witness for C5: a chronological start/end/progress log produces a
chained interval list. -/
theorem claim_C5_witness :
    List.Chain' (fun i j => i.End ≤ j.Start) [(⟨1, 2, 1⟩ : SilenceInterval)] ∧
    List.Chain' (fun i j => i.Start ≤ j.Start) [(⟨1, 2, 1⟩ : SilenceInterval)] :=
  claim_C5 "silence_start: 1\nsilence_end: 2 | silence_duration: 1\ntime=00:00:03.00"
    [FfmpegEvent.silenceStart 1, FfmpegEvent.silenceEnd 2 1, FfmpegEvent.progress 3]
    [⟨1, 2, 1⟩] 3 (by decide)
    (by norm_num [eventTimes, List.chain'_cons, List.chain'_singleton]) (by decide)

/-- Counterexample to C5 as stated: two end markers in reverse order
parse successfully into an interval list that is not chronological. -/
theorem claim_C5_cex :
    parseSilenceOutput
        "silence_end: 10 | silence_duration: 2\nsilence_end: 5 | silence_duration: 1" =
      .ok ([⟨8, 10, 2⟩, ⟨4, 5, 1⟩], 0) ∧
    ¬ List.Chain' (fun i j => i.End ≤ j.Start)
        [(⟨8, 10, 2⟩ : SilenceInterval), ⟨4, 5, 1⟩] :=
  ⟨by decide, by norm_num [List.chain'_cons, List.chain'_singleton]⟩

/-! ### Claim C7 (corrected) -/

/-- C7 (amended): `Start ≥ 0` and `End ≥ Start` hold for every produced
interval on chronologically consistent inputs (as in C5: all mentioned
timestamps, including each end marker's inferred start `e - d`,
non-negative and non-decreasing).  Unconditionally the claim is false: an
end marker whose duration exceeds its end yields a negative inferred
start, and an end before a pending start yields `End < Start` (see the
counterexample). -/
theorem claim_C7 (s : String) (evs : List FfmpegEvent) (ivs : List SilenceInterval) (d : ℚ)
    (hev : classifyLines (splitOnNewline s.data) = .ok evs)
    (hchron : List.Chain' (· ≤ ·) (0 :: (evs.map eventTimes).flatten))
    (hok : parseSilenceOutput s = .ok (ivs, d)) :
    ∀ i ∈ ivs, 0 ≤ i.Start ∧ i.Start ≤ i.End := by
  have hp : parseSilenceOutput s =
      .ok (finalize (List.foldl stepEvent initState evs),
        (List.foldl stepEvent initState evs).lastProgress) := by
    rw [parseSilenceOutput_eq_events s, hev]
  rw [hp] at hok
  have hivs : ivs = finalize (List.foldl stepEvent initState evs) := by
    injection hok with h1
    exact (congrArg Prod.fst h1).symm
  subst hivs
  have hs := fold_sorted evs 0 initState hchron (le_refl 0)
    (fun i hi => absurd hi (List.not_mem_nil i))
    List.chain'_nil
    (fun i hi => absurd hi (by simp [initState]))
    (fun t ht => absurd ht (by simp [initState]))
  obtain ⟨hmem, hchain, hpend⟩ := hs
  exact (finalize_sorted _ hmem hchain (fun t ht => hpend t ht)).1

/-- Witness for C7: the repository test's no-explicit-start log line yields
an interval with `0 ≤ Start ≤ End`. -/
theorem claim_C7_witness :
    0 ≤ (⟨36/5, 46/5, 2⟩ : SilenceInterval).Start ∧
      (⟨36/5, 46/5, 2⟩ : SilenceInterval).Start ≤ (⟨36/5, 46/5, 2⟩ : SilenceInterval).End :=
  claim_C7 "silence_end: 9.2 | silence_duration: 2"
    [FfmpegEvent.silenceEnd (46/5) 2] [⟨36/5, 46/5, 2⟩] 0
    (by decide)
    (by norm_num [eventTimes, List.chain'_cons, List.chain'_singleton]) (by decide)
    ⟨36/5, 46/5, 2⟩ (by decide)

/-- Counterexample to C7 as stated: a duration larger than the end makes
the inferred start negative, and the parse still succeeds. -/
theorem claim_C7_cex :
    parseSilenceOutput "silence_end: 1 | silence_duration: 5" = .ok ([⟨-4, 1, 5⟩], 0) ∧
    ¬ (0 ≤ (⟨-4, 1, 5⟩ : SilenceInterval).Start) :=
  ⟨by decide, by decide⟩

/-! ### Claim C4 (corrected) -/

/-- Lines that all classify to no event leave the loop state untouched. -/
lemma runLines_all_none (ls : List (List Char)) (h : ∀ l ∈ ls, classifyLine l = .ok none) :
    ∀ st, runLines st ls = .ok st := by
  induction ls with
  | nil => intro st; rfl
  | cons l ls ih =>
    intro st
    simp only [runLines, processLine, h l (List.mem_cons_self l ls)]
    exact ih (fun x hx => h x (List.mem_cons_of_mem l hx)) st

/-- C4 (amended): a line whose marker is followed by malformed numeric
text does not match the pattern at all, so it contributes no event and no
error; an input all of whose lines match no pattern parses successfully to
no intervals and duration `0`.  The spec's `MalformedEvent` failure is not
what the code does (see the counterexample). -/
theorem claim_C4 (s : String)
    (h : ∀ l ∈ splitOnNewline s.data, classifyLine l = .ok none) :
    parseSilenceOutput s = .ok ([], 0) := by
  unfold parseSilenceOutput
  rw [runLines_all_none (splitOnNewline s.data) h initState]
  rfl

/-- Witness for C4: marker lines with malformed numeric payloads parse to
the empty successful result. -/
theorem claim_C4_witness :
    parseSilenceOutput "silence_start: abc\nsilence_end: oops | silence_duration: x" =
      .ok ([], 0) :=
  claim_C4 "silence_start: abc\nsilence_end: oops | silence_duration: x" (by decide)

/-- Counterexample to C4 as stated: a `silence_start:` marker followed by
non-numeric text yields a successful empty parse, not an error. -/
theorem claim_C4_cex :
    parseSilenceOutput "silence_start: abc" = .ok ([], 0) := by decide

/-! ### Claim C10 (corrected) -/

/-- A capture is good when `strconv.ParseFloat` can fail on it only with a
range error, never a syntax error. -/
def GoodCap (cap : List Char) : Prop :=
  ∀ e, parseFloatGo cap = .error e → e = FloatErr.rangeErr

/-- `takeWhile`/`dropWhile` through an append whose left part satisfies the
predicate and whose right part starts with a failing character. -/
lemma takeWhile_append_all (p : Char → Bool) (l r : List Char)
    (hl : ∀ c ∈ l, p c = true) (hr : ∀ c, r.head? = some c → p c = false) :
    (l ++ r).takeWhile p = l ∧ (l ++ r).dropWhile p = r := by
  induction l with
  | nil =>
    cases r with
    | nil => exact ⟨rfl, rfl⟩
    | cons c cs =>
      have hc := hr c rfl
      exact ⟨by simp [List.takeWhile_cons, hc], by simp [List.dropWhile_cons, hc]⟩
  | cons a l ih =>
    have ha := hl a (List.mem_cons_self a l)
    have ihr := ih fun c hc => hl c (List.mem_cons_of_mem a hc)
    exact ⟨by simp [List.takeWhile_cons, ha, ihr.1], by simp [List.dropWhile_cons, ha, ihr.2]⟩

/-- Scanning the rendering of a well-formed number consumes it entirely. -/
lemma scanNumber_renderNum (ip : List Char) (fp : Option (List Char))
    (hip : ip ≠ []) (hipd : ∀ c ∈ ip, isAsciiDigit c = true)
    (hfp : ∀ f, fp = some f → f ≠ [] ∧ ∀ c ∈ f, isAsciiDigit c = true) :
    scanNumber (renderNum ip fp) = some ((ip, fp), []) := by
  have hipe : ip.isEmpty = false := by
    cases ip with
    | nil => exact absurd rfl hip
    | cons a l => rfl
  cases fp with
  | none =>
    have h1 : renderNum ip none = ip := by simp [renderNum]
    rw [h1]
    simp only [scanNumber]
    rw [List.takeWhile_eq_self_iff.mpr fun x hx => hipd x hx,
      List.dropWhile_eq_nil_iff.mpr fun x hx => hipd x hx, hipe]
    rfl
  | some f =>
    obtain ⟨hfne, hfd⟩ := hfp f rfl
    have hfe : f.isEmpty = false := by
      cases f with
      | nil => exact absurd rfl hfne
      | cons a l => rfl
    have h1 : renderNum ip (some f) = ip ++ '.' :: f := rfl
    rw [h1]
    have h2 := takeWhile_append_all isAsciiDigit ip ('.' :: f) hipd
      (fun c hc => by
        have h3 : '.' = c := by simpa using hc
        rw [← h3]
        rfl)
    simp only [scanNumber]
    rw [h2.1, h2.2, hipe]
    simp only [Bool.false_eq_true, if_false]
    rw [List.takeWhile_eq_self_iff.mpr fun x hx => hfd x hx,
      List.dropWhile_eq_nil_iff.mpr fun x hx => hfd x hx, hfe]
    rfl

/-- `strconv.ParseFloat` on the rendering of a well-formed capture cannot
be a syntax error. -/
lemma parseFloatGo_renderNum_good (ip : List Char) (fp : Option (List Char))
    (hip : ip ≠ []) (hipd : ∀ c ∈ ip, isAsciiDigit c = true)
    (hfp : ∀ f, fp = some f → f ≠ [] ∧ ∀ c ∈ f, isAsciiDigit c = true) :
    GoodCap (renderNum ip fp) := by
  intro e he
  unfold parseFloatGo at he
  rw [scanNumber_renderNum ip fp hip hipd hfp] at he
  simp only [List.isEmpty_nil, if_true] at he
  by_cases hb : float64OverflowBound ≤ ratOfParts ip fp
  · rw [if_pos hb] at he
    injection he with h2
    exact h2.symm
  · rw [if_neg hb] at he
    cases he

/-- Every successful `scanNumber` produces non-empty all-digit parts. -/
lemma scanNumber_parts (cs ip : List Char) (fp : Option (List Char)) (rest : List Char)
    (h : scanNumber cs = some ((ip, fp), rest)) :
    ip ≠ [] ∧ (∀ c ∈ ip, isAsciiDigit c = true) ∧
      ∀ f, fp = some f → f ≠ [] ∧ ∀ c ∈ f, isAsciiDigit c = true := by
  simp only [scanNumber] at h
  split at h
  · cases h
  · rename_i hemp
    have hipne : cs.takeWhile isAsciiDigit ≠ [] := by
      intro hx
      rw [hx] at hemp
      exact hemp rfl
    split at h
    · split at h
      · injection h with h2
        injection h2 with h3 h4
        injection h3 with h5 h6
        subst h5
        subst h6
        exact ⟨hipne, fun c hc => List.mem_takeWhile_imp hc,
          fun f hf => Option.noConfusion hf⟩
      · rename_i cs2 heqd hfe
        injection h with h2
        injection h2 with h3 h4
        injection h3 with h5 h6
        subst h5
        subst h6
        refine ⟨hipne, fun c hc => List.mem_takeWhile_imp hc, fun f hf => ?_⟩
        injection hf with hf2
        subst hf2
        refine ⟨?_, fun c hc => List.mem_takeWhile_imp hc⟩
        intro hx
        rw [hx] at hfe
        exact hfe rfl
    · injection h with h2
      injection h2 with h3 h4
      injection h3 with h5 h6
      subst h5
      subst h6
      exact ⟨hipne, fun c hc => List.mem_takeWhile_imp hc,
        fun f hf => Option.noConfusion hf⟩

/-- Each number capture a successful `scanNumber` yields is good. -/
lemma scanNumber_good (cs ip : List Char) (fp : Option (List Char)) (rest : List Char)
    (h : scanNumber cs = some ((ip, fp), rest)) : GoodCap (renderNum ip fp) := by
  obtain ⟨h1, h2, h3⟩ := scanNumber_parts cs ip fp rest h
  exact parseFloatGo_renderNum_good ip fp h1 h2 h3

/-- The capture of a successful start payload scan is good. -/
lemma scanStartPayload_good (cs cap : List Char) (h : scanStartPayload cs = some cap) :
    GoodCap cap := by
  simp only [scanStartPayload] at h
  split at h
  · cases h
  · rename_i ip fp r heq
    injection h with h2
    subst h2
    exact scanNumber_good _ ip fp r heq

/-- Both captures of a successful end payload scan are good. -/
lemma scanEndPayload_good (cs : List Char) (caps : List Char × List Char)
    (h : scanEndPayload cs = some caps) : GoodCap caps.1 ∧ GoodCap caps.2 := by
  simp only [scanEndPayload] at h
  split at h
  · cases h
  · rename_i ip1 fp1 r1 heq1
    split at h
    · rename_i r2 heq2
      split at h
      · rename_i hmarker
        split at h
        · cases h
        · rename_i ip2 fp2 r3 heq3
          injection h with h2
          subst h2
          exact ⟨scanNumber_good _ ip1 fp1 r1 heq1, scanNumber_good _ ip2 fp2 r3 heq3⟩
      · cases h
    · cases h

/-- The seconds capture of a successful progress payload scan is good. -/
lemma scanProgressPayload_good (cs : List Char) (x : List Char × List Char × List Char)
    (h : scanProgressPayload cs = some x) : GoodCap x.2.2 := by
  simp only [scanProgressPayload] at h
  split at h
  · cases h
  · rename_i hh r1 heq1
    split at h
    · rename_i r2
      split at h
      · cases h
      · rename_i mm r3 heq2
        split at h
        · rename_i r4
          split at h
          · cases h
          · rename_i ip fp r5 heq3
            injection h with h2
            subst h2
            exact scanNumber_good _ ip fp r5 heq3
        · cases h
    · cases h

/-- A property of all payload results propagates through the leftmost
marker scan. -/
lemma findPattern_prop {α : Type} (marker : List Char) (payload : List Char → Option α)
    (P : α → Prop) (hp : ∀ cs a, payload cs = some a → P a) :
    ∀ (l : List Char) (a : α), findPattern marker payload l = some a → P a := by
  intro l
  induction l with
  | nil => intro a h; cases h
  | cons c cs ih =>
    intro a h
    unfold findPattern at h
    split at h
    · rename_i a2 heq
      injection h with h2
      subst h2
      by_cases hm : marker.isPrefixOf (c :: cs)
      · rw [if_pos hm] at heq
        exact hp _ a2 heq
      · rw [if_neg hm] at heq
        cases heq
    · exact ih a h

/-- The only error `classifyLine` can return is a range failure: the three
patterns capture only well-formed non-negative decimals, so the syntax
branches of the four `ParseFloat` sites are unreachable. -/
lemma classifyLine_error_range (l : List Char) (e : ParseErr)
    (h : classifyLine l = .error e) : e.cause = FloatErr.rangeErr := by
  simp only [classifyLine] at h
  split at h
  · cases h
  · split at h
    · rename_i cap heq
      have hgood := findPattern_prop silenceStartMarker scanStartPayload GoodCap
        scanStartPayload_good _ cap heq
      split at h
      · rename_i fe heqpf
        injection h with h2
        subst h2
        rw [hgood fe heqpf]
        rfl
      · cases h
    · split at h
      · rename_i capEnd capDur heq
        have hgood := findPattern_prop silenceEndMarker scanEndPayload
          (fun x => GoodCap x.1 ∧ GoodCap x.2) scanEndPayload_good _ (capEnd, capDur) heq
        split at h
        · rename_i fe heqpf
          injection h with h2
          subst h2
          rw [hgood.1 fe heqpf]
          rfl
        · split at h
          · rename_i fe heqpf
            injection h with h2
            subst h2
            rw [hgood.2 fe heqpf]
            rfl
          · cases h
      · split at h
        · rename_i hh mm secCap heq
          have hgood := findPattern_prop progressTimeMarker scanProgressPayload
            (fun y => GoodCap y.2.2) scanProgressPayload_good _ (hh, mm, secCap) heq
          split at h
          · rename_i fe heqpf
            injection h with h2
            subst h2
            rw [hgood fe heqpf]
            rfl
          · cases h
        · cases h

/-- The only error the classification of a line list can return is a range
failure. -/
lemma classifyLines_error_range : ∀ (ls : List (List Char)) (e : ParseErr),
    classifyLines ls = .error e → e.cause = FloatErr.rangeErr := by
  intro ls
  induction ls with
  | nil => intro e h; cases h
  | cons l ls ih =>
    intro e h
    unfold classifyLines at h
    split at h
    · rename_i e2 heq
      injection h with h2
      subst h2
      exact classifyLine_error_range l e2 heq
    · exact ih e h
    · rename_i ev heq
      split at h
      · rename_i e2 heq2
        injection h with h2
        subst h2
        exact ih e2 heq2
      · cases h

/-- C10 (amended): `parseSilenceOutput` can fail, but only through the
`float64` range overflow of a well-formed capture (`strconv.ParseFloat`
returns `ErrRange` for decimal values of at least `2^1024 - 2^970`); the
syntax-error branches are unreachable because the patterns only capture
well-formed non-negative decimals, and a line whose marker is followed by
malformed numeric text fails the match and produces no event.  The
original unconditional "never returns an error" is refuted by a 310-digit
capture (see the counterexample). -/
theorem claim_C10 (s : String) (e : ParseErr) (h : parseSilenceOutput s = .error e) :
    e.cause = FloatErr.rangeErr := by
  rw [parseSilenceOutput_eq_events s] at h
  cases hcl : classifyLines (splitOnNewline s.data) with
  | error e2 =>
    rw [hcl] at h
    injection h with h2
    subst h2
    exact classifyLines_error_range _ e2 hcl
  | ok evs =>
    rw [hcl] at h
    cases h

set_option maxRecDepth 8000 in
/-- Witness for C10: a `silence_start` whose capture has 309 digits
overflows `float64`, and the resulting error is indeed a range error. -/
theorem claim_C10_witness :
    ParseErr.cause (ParseErr.startErr FloatErr.rangeErr) = FloatErr.rangeErr :=
  claim_C10 (String.mk ("silence_start: ".data ++ List.replicate 309 '9'))
    (ParseErr.startErr FloatErr.rangeErr) (by decide)

set_option maxRecDepth 8000 in
/-- Counterexample to C10 as stated: a well-formed 310-digit capture makes
`parseSilenceOutput` return an error instead of succeeding. -/
theorem claim_C10_cex :
    parseSilenceOutput (String.mk ("silence_start: ".data ++ List.replicate 310 '9')) =
      .error (ParseErr.startErr FloatErr.rangeErr) := by decide

end SilenceDetector
